import Mathlib

/-!
Shallow embedding of the signature-synchronization engine of
`src/database_api.py` (class `HashAPI`), together with proofs about it.

Modelling conventions:

* A SQLite connection is a pair of record lists: the rows already
  committed, and the rows applied inside the currently open (implicit)
  transaction but not yet committed.  Reads on the same connection see
  both (`records`).
* Machine-level strings are Lean `String`s; Python's `int(s)` on a digit
  string is `pyInt`, Python's `f"{n:05d}"` is `fmt5`, Python's
  `str.replace(old, "")` is `pyReplaceDel`, and `str(line)` on a
  newline-terminated bytes line `b"<text>\n"` is the wrapper
  `"b'" ++ text ++ "\n'"` (with the newline rendered as the two
  characters backslash-`n`, as Python's bytes repr prints it).
* The network is a pure function `Fetch` from a 5-digit shard index
  string to the outcome of `urlopen` on the corresponding
  `VirusShare_<index>.md5` URL: the resource's lines, an `HTTPError`
  with a status code, or a connectivity-class `URLError`.
* The unbounded `while True` loop of `download_files` is given explicit
  fuel; running out of fuel is reported as a distinguished outcome so
  that no behaviour is invented for truncated runs.
-/

/-! ## Definitions (the embedding of src/database_api.py) -/

/-- Decimal digit character for `d < 10`, as Python prints it. -/
def digitChar (d : Nat) : Char := Char.ofNat (48 + d)

/-- Fuel-indexed decimal rendering of a natural number (most significant
digit first), modelling Python's decimal formatting of a nonnegative int. -/
def natDigitsAux : Nat → Nat → List Char
  | 0, _ => []
  | fuel + 1, n =>
    if n < 10 then [digitChar n]
    else natDigitsAux fuel (n / 10) ++ [digitChar (n % 10)]

/-- Decimal digits of `n`; the fuel `n + 1` always suffices. -/
def natDigits (n : Nat) : List Char := natDigitsAux (n + 1) n

/-- Python's `f"{n:05d}"`: decimal rendering left-padded with zeros to at
least five characters (`src/database_api.py:141` and `:180`). -/
def fmt5 (n : Nat) : String :=
  String.mk (List.replicate (5 - (natDigits n).length) '0' ++ natDigits n)

/-- Decimal parse of a digit-character list, accumulator style; this is the
value Python's `int()` computes on a string of decimal digits. -/
def pyIntList (l : List Char) : Nat :=
  l.foldl (fun a c => a * 10 + (c.toNat - 48)) 0

/-- Python's `int(s)` for a decimal-digit string `s`
(`src/database_api.py:140` and `:179`). -/
def pyInt (s : String) : Nat := pyIntList s.toList

/-- Does the list start with the given pattern? -/
def listStartsWith : List Char → List Char → Bool
  | _, [] => true
  | [], _ :: _ => false
  | a :: as, b :: bs => a = b && listStartsWith as bs

/-- Remove every (non-overlapping, leftmost-first) occurrence of `pat`
from `s`, fuel-indexed; models Python's `s.replace(pat, "")` for a
nonempty `pat`. -/
def replaceAllAux (pat : List Char) : Nat → List Char → List Char
  | 0, s => s
  | _ + 1, [] => []
  | fuel + 1, c :: cs =>
    if listStartsWith (c :: cs) pat then
      replaceAllAux pat fuel (List.drop pat.length (c :: cs))
    else
      c :: replaceAllAux pat fuel cs

/-- Python's `s.replace(pat, "")` for nonempty `pat`. -/
def pyReplaceDel (s pat : String) : String :=
  String.mk (replaceAllAux pat.toList (s.toList.length + 1) s.toList)

/-- Python's `s.startswith(pat)`. -/
def pyStartsWith (s pat : String) : Bool :=
  listStartsWith s.toList pat.toList

/-- Processing of one raw shard line (`src/database_api.py:134`):
`str(line)` on the newline-terminated bytes line wraps the text as
`b'<text>\n'` (backslash-n spelled out), then both replacements delete
every occurrence of `b'` and of `\n'`. -/
def processLine (line : String) : String :=
  pyReplaceDel (pyReplaceDel ("b\x27" ++ line ++ "\x5cn\x27") "b\x27") "\x5cn\x27"

/-- The hash batch built from a shard's lines
(`src/database_api.py:132-136`): each processed line that does not start
with `#` is appended, paired with the current shard index. -/
def parseShard (lines : List String) (file_nr : String) : List (String × String) :=
  lines.foldl
    (fun acc line =>
      let line_n := processLine line
      if pyStartsWith line_n "#" then acc else acc ++ [(line_n, file_nr)])
    []

/-- Strict byte-wise (lexicographic) comparison of character lists; on
the ASCII digit strings the store holds this is exactly SQLite's BINARY
collation order for a varchar column. -/
def strLtList : List Char → List Char → Bool
  | [], [] => false
  | [], _ :: _ => true
  | _ :: _, [] => false
  | a :: as, b :: bs =>
    if a < b then true else if b < a then false else strLtList as bs

/-- Strict string comparison under SQLite's BINARY collation. -/
def strLt (s t : String) : Bool := strLtList s.toList t.toList

/-- The signatures store behind the single sqlite3 connection: one
relation `signatures(hash varchar(32) PRIMARY KEY, file_nr varchar(5))`
(`src/database_api.py:42-53`).  `committed` holds the committed rows in
insertion order; `pending` holds the rows applied inside the
connection's open implicit transaction but not yet committed.
Statements on the connection read `committed ++ pending`; `commit`
makes the pending rows durable. -/
structure DB where
  committed : List (String × String)
  pending : List (String × String)
deriving DecidableEq

/-- Rows visible to statements on the connection. -/
def DB.records (db : DB) : List (String × String) := db.committed ++ db.pending

/-- The store right after `init_table` on a fresh database file. -/
def emptyDB : DB := ⟨[], []⟩

/-- One `INSERT INTO signatures(hash, file_nr) VALUES(?, ?)`: rejected
(`none`) when the primary key `hash` is already taken, otherwise the row
joins the open transaction. -/
def insertRow (db : DB) (r : String × String) : Option DB :=
  if db.records.any (fun q => q.1 == r.1) then none
  else some { db with pending := db.pending ++ [r] }

/-- `cursor.executemany` over a parameter list: rows are inserted in
order; the first constraint violation raises (`true` flag), leaving the
earlier rows of the batch applied but the rest unprocessed. -/
def executemany : DB → List (String × String) → DB × Bool
  | db, [] => (db, false)
  | db, r :: rs =>
    match insertRow db r with
    | none => (db, true)
    | some db2 => executemany db2 rs

/-- `connection.commit()`. -/
def commit (db : DB) : DB := ⟨db.committed ++ db.pending, []⟩

/-- `HashAPI.insert_hashes` (`src/database_api.py:66-71`): `executemany`
then `commit`, with any `sqlite3.Error` caught and printed — on error the
commit is skipped and the method still returns normally. -/
def insert_hashes (db : DB) (hs : List (String × String)) : DB :=
  let r := executemany db hs
  if r.2 then r.1 else commit r.1

/-- `HashAPI.hash_exists` (`src/database_api.py:73-81`). -/
def hash_exists (db : DB) (h : String) : Bool :=
  db.records.any (fun q => q.1 == h)

/-- `SELECT file_nr FROM signatures ORDER BY file_nr DESC LIMIT 1`: the
maximum stored `file_nr` under the collation order, or `none` on an
empty relation. -/
def maxFileNr : List (String × String) → Option String
  | [] => none
  | r :: rs =>
    match maxFileNr rs with
    | none => some r.2
    | some m => some (if strLt r.2 m then m else r.2)

/-- `HashAPI.get_latest_file_nr` (`src/database_api.py:83-95`): the row
found by the descending-order query, stringified; when `fetchone()`
yields no row the `TypeError` handler returns `"00000"`. -/
def get_latest_file_nr (db : DB) : String :=
  match maxFileNr db.records with
  | some s => s
  | none => "00000"

/-- `HashAPI.count_hashes` (`src/database_api.py:97-104`). -/
def count_hashes (db : DB) : String := toString db.records.length

/-- Outcome of `urlopen` on the `VirusShare_<index>.md5` URL for a given
index string: the resource's raw lines, an `HTTPError` carrying a status
code, or a connectivity-class `URLError`. -/
inductive Fetch where
  | found (lines : List String)
  | http (code : Nat)
  | connFail
deriving DecidableEq

/-- Advance of the loop index (`src/database_api.py:140-141` and
`:179-180`): `int(file_nr) + 1` re-rendered as a zero-padded 5-digit
string. -/
def nextNr (s : String) : String := fmt5 (pyInt s + 1)

/-- `HashAPI.db_is_updated` (`src/database_api.py:151-175`), probing
`_check_latest_file` on the successor of the current latest index.
Python's three-valued outcome is kept: `some true` / `some false` are
the documented returns, while an `HTTPError` whose code is not 404 falls
off the end of the handler and yields Python `None` (`none` here). -/
def db_is_updated (catalog : String → Fetch) (db : DB) : Option Bool :=
  let file_nr := get_latest_file_nr db
  if file_nr = "None" then some false
  else
    match catalog (nextNr file_nr) with
    | Fetch.found _ => some false
    | Fetch.http code => if code = 404 then some true else none
    | Fetch.connFail => some true

/-- How a run of the download loop ended: `finished` for a `break` (the
404 arm or the catch-all `HTTPError` arm), `raised` for an uncaught
`URLError`, `fuelOut` when the modelling fuel ran out. -/
inductive RunEnd where
  | finished
  | raised
  | fuelOut
deriving DecidableEq

/-- The `while True` loop of `HashAPI.download_files`
(`src/database_api.py:126-147`): fetch the shard at the current index;
on success parse its lines, hand the batch to `insert_hashes`, and
advance; on `HTTPError` break (whether or not the code is 404); a
non-HTTP `URLError` is not caught by the loop and propagates.  Returns
the final connection state, the list of indices fetched in order, and
how the loop ended. -/
def downloadLoop (catalog : String → Fetch) : Nat → String → DB → DB × List String × RunEnd
  | 0, _, db => (db, [], RunEnd.fuelOut)
  | fuel + 1, file_nr, db =>
    match catalog file_nr with
    | Fetch.found lines =>
      let db2 := insert_hashes db (parseShard lines file_nr)
      let r := downloadLoop catalog fuel (nextNr file_nr) db2
      (r.1, file_nr :: r.2.1, r.2.2)
    | Fetch.http _ => (db, [file_nr], RunEnd.finished)
    | Fetch.connFail => (db, [file_nr], RunEnd.raised)

/-- `HashAPI.download_files` (`src/database_api.py:121-149`): when
`db_is_updated()` is truthy (`some true`) nothing happens; on a falsy
result (`some false` or Python `None`) the loop is entered at
`get_latest_file_nr()` — the cursor itself. -/
def download_files (catalog : String → Fetch) (fuel : Nat) (db : DB) :
    DB × List String × RunEnd :=
  match db_is_updated catalog db with
  | some true => (db, [], RunEnd.finished)
  | _ => downloadLoop catalog fuel (get_latest_file_nr db) db

/-- Uniqueness invariant of the store: at most one row per hash value. -/
def UniqInv (db : DB) : Prop := (db.records.map Prod.fst).Nodup

/-- Well-formed stores: every row's `file_nr` was produced by the
5-digit formatter (as every insert path of the synchronization code
does). -/
def WFdb (db : DB) : Prop := ∀ r ∈ db.records, ∃ n, r.2 = fmt5 n

/-- A store holding one committed record for shard 00000. -/
def db0 : DB := ⟨[("h1", "00000")], []⟩

/-- A store already holding hash "x". -/
def dbX : DB := ⟨[("x", "00000")], []⟩

/-- A batch whose middle record collides with `dbX`. -/
def batchX : List (String × String) :=
  [("y", "00001"), ("x", "00001"), ("z", "00001")]

/-- Catalog publishing shards 00000 and 00001 and nothing else. -/
def cat1 : String → Fetch := fun s =>
  if s = "00001" then Fetch.found ["aaaa"]
  else if s = "00000" then Fetch.found ["bbbb"]
  else Fetch.http 404

/-- Catalog whose every fetch raises an HTTP 500 server error. -/
def cat3 : String → Fetch := fun _ => Fetch.http 500

/-- Catalog publishing nothing: every fetch is a 404. -/
def cat404 : String → Fetch := fun _ => Fetch.http 404

/-- Catalog publishing shard 00001 only. -/
def cat7 : String → Fetch := fun s =>
  if s = "00001" then Fetch.found ["aaaa"] else Fetch.http 404

/-- Catalog with two shards that both contain hash "aaaa". -/
def cat9 : String → Fetch := fun s =>
  if s = "00000" then Fetch.found ["aaaa"]
  else if s = "00001" then Fetch.found ["aaaa", "bbbb"]
  else Fetch.http 404

/-! ## Sanity checks on concrete values -/

example : fmt5 0 = "00000" := by decide

example : fmt5 27 = "00027" := by decide

example : fmt5 123456 = "123456" := by decide

example : pyInt "00027" = 27 := by decide

example : processLine "0123abcd" = "0123abcd" := by decide

example : processLine "" = "" := by decide

example : processLine "# comment" = "# comment" := by decide

example : parseShard ["aaaa", "# c", "bbbb"] "00001"
    = [("aaaa", "00001"), ("bbbb", "00001")] := by decide

example : parseShard [""] "00000" = [("", "00000")] := by decide

example : nextNr "00000" = "00001" := by decide

/-! ## Decimal formatting and parsing -/

theorem digitChar_toNat (d : Nat) (h : d < 10) : (digitChar d).toNat = 48 + d := by
  interval_cases d <;> decide

theorem digitChar_isDigit (d : Nat) (h : d < 10) : (digitChar d).isDigit = true := by
  interval_cases d <;> decide

theorem natDigitsAux_ne_nil (fuel n : Nat) (h : n < fuel) :
    natDigitsAux fuel n ≠ [] := by
  cases fuel with
  | zero => omega
  | succ f =>
    simp only [natDigitsAux]
    split
    · simp
    · simp

theorem pyIntList_foldl_natDigitsAux (fuel : Nat) :
    ∀ n a, n < fuel →
      List.foldl (fun a c => a * 10 + (c.toNat - 48)) a (natDigitsAux fuel n)
        = a * 10 ^ (natDigitsAux fuel n).length + n := by
  induction fuel with
  | zero => intro n a h; omega
  | succ f ih =>
    intro n a h
    simp only [natDigitsAux]
    by_cases h10 : n < 10
    · simp only [if_pos h10, List.foldl_cons, List.foldl_nil, List.length_singleton]
      rw [digitChar_toNat n h10]
      omega
    · have hrec : n / 10 < f := by
        have h1 : n / 10 < n := Nat.div_lt_self (by omega) (by omega)
        omega
      simp only [if_neg h10, List.foldl_append, List.foldl_cons, List.foldl_nil,
        List.length_append, List.length_singleton]
      rw [ih (n / 10) a hrec]
      rw [digitChar_toNat (n % 10) (Nat.mod_lt n (by omega))]
      have hmod := Nat.div_add_mod n 10
      ring_nf
      omega

theorem pyIntList_natDigits (n a : Nat) :
    List.foldl (fun a c => a * 10 + (c.toNat - 48)) a (natDigits n)
      = a * 10 ^ (natDigits n).length + n :=
  pyIntList_foldl_natDigitsAux (n + 1) n a (Nat.lt_succ_self n)

theorem pyIntList_replicate_zero (k : Nat) :
    ∀ l, pyIntList (List.replicate k '0' ++ l) = pyIntList l := by
  induction k with
  | zero => intro l; rfl
  | succ m ih =>
    intro l
    simp only [List.replicate_succ, List.cons_append]
    show List.foldl _ ((0 : Nat) * 10 + ('0'.toNat - 48)) _ = _
    have : (0 : Nat) * 10 + ('0'.toNat - 48) = 0 := by decide
    rw [this]
    exact ih l

/-- Round trip: parsing the zero-padded rendering of `n` gives back `n`.
This is the bridge between the string-valued shard indices the code
carries and their numeric meaning. -/
theorem pyInt_fmt5 (n : Nat) : pyInt (fmt5 n) = n := by
  unfold pyInt fmt5
  have hmk : (String.mk (List.replicate (5 - (natDigits n).length) '0' ++ natDigits n)).toList
      = List.replicate (5 - (natDigits n).length) '0' ++ natDigits n := rfl
  rw [hmk, pyIntList_replicate_zero]
  unfold pyIntList
  rw [pyIntList_natDigits n 0]
  ring

theorem natDigitsAux_all_digits (fuel : Nat) :
    ∀ n c, c ∈ natDigitsAux fuel n → c.isDigit = true := by
  induction fuel with
  | zero => intro n c hc; simp [natDigitsAux] at hc
  | succ f ih =>
    intro n c hc
    simp only [natDigitsAux] at hc
    by_cases h10 : n < 10
    · rw [if_pos h10, List.mem_singleton] at hc
      rw [hc]; exact digitChar_isDigit n h10
    · rw [if_neg h10, List.mem_append, List.mem_singleton] at hc
      rcases hc with hc | hc
      · exact ih (n / 10) c hc
      · rw [hc]; exact digitChar_isDigit _ (Nat.mod_lt n (by omega))

/-- Every character of `fmt5 n` is a decimal digit. -/
theorem fmt5_all_digits (n : Nat) :
    ∀ c ∈ (fmt5 n).toList, c.isDigit = true := by
  intro c hc
  have hmk : (fmt5 n).toList
      = List.replicate (5 - (natDigits n).length) '0' ++ natDigits n := rfl
  rw [hmk, List.mem_append] at hc
  rcases hc with hc | hc
  · rw [List.eq_of_mem_replicate hc]; decide
  · exact natDigitsAux_all_digits (n + 1) n c hc

/-- The formatted index is never the literal string "None". -/
theorem fmt5_ne_None (n : Nat) : fmt5 n ≠ "None" := by
  intro h
  have : ('N' : Char).isDigit = true := by
    apply fmt5_all_digits n
    rw [h]; decide
  exact absurd this (by decide)

theorem nextNr_fmt5 (n : Nat) : nextNr (fmt5 n) = fmt5 (n + 1) := by
  unfold nextNr
  rw [pyInt_fmt5]

/-! ## The collation order and its numeric meaning -/

theorem strLtList_irrefl : ∀ l, strLtList l l = false := by
  intro l
  induction l with
  | nil => rfl
  | cons a as ih => simp [strLtList, lt_irrefl, ih]

theorem strLtList_asymm :
    ∀ l1 l2, strLtList l1 l2 = true → strLtList l2 l1 = false := by
  intro l1
  induction l1 with
  | nil =>
    intro l2 h
    cases l2 with
    | nil => rfl
    | cons b bs => rfl
  | cons a as ih =>
    intro l2 h
    cases l2 with
    | nil => simp [strLtList] at h
    | cons b bs =>
      simp only [strLtList] at h ⊢
      rcases lt_trichotomy a b with hab | hab | hab
      · rw [if_neg (not_lt_of_lt hab), if_pos hab]
      · subst hab
        rw [if_neg (lt_irrefl a), if_neg (lt_irrefl a)] at h ⊢
        exact ih bs h
      · rw [if_neg (not_lt_of_lt hab), if_pos hab] at h
        exact absurd h (by decide)

theorem strLtList_neg_trans :
    ∀ l1 l2 l3, strLtList l1 l2 = false → strLtList l2 l3 = false →
      strLtList l1 l3 = false := by
  intro l1
  induction l1 with
  | nil =>
    intro l2 l3 h12 h13
    cases l2 with
    | nil => exact h13
    | cons b bs => simp [strLtList] at h12
  | cons a as ih =>
    intro l2 l3 h12 h23
    cases l2 with
    | nil =>
      cases l3 with
      | nil => rfl
      | cons c cs => simp [strLtList] at h23
    | cons b bs =>
      cases l3 with
      | nil => rfl
      | cons c cs =>
        simp only [strLtList] at h12 h23 ⊢
        rcases lt_trichotomy a b with hab | hab | hab
        · rw [if_pos hab] at h12; exact absurd h12 (by decide)
        · subst hab
          rw [if_neg (lt_irrefl a), if_neg (lt_irrefl a)] at h12
          rcases lt_trichotomy a c with hac | hac | hac
          · rw [if_pos hac] at h23; exact absurd h23 (by decide)
          · subst hac
            rw [if_neg (lt_irrefl a), if_neg (lt_irrefl a)] at h23 ⊢
            exact ih bs cs h12 h23
          · rw [if_neg (not_lt_of_lt hac), if_pos hac]
        · rcases lt_trichotomy b c with hbc | hbc | hbc
          · rw [if_pos hbc] at h23; exact absurd h23 (by decide)
          · subst hbc
            have hac : b < a := hab
            rw [if_neg (not_lt_of_lt hac), if_pos hac]
          · have hac : c < a := lt_trans hbc hab
            rw [if_neg (not_lt_of_lt hac), if_pos hac]

theorem strLtList_antisymm :
    ∀ l1 l2, strLtList l1 l2 = false → strLtList l2 l1 = false → l1 = l2 := by
  intro l1
  induction l1 with
  | nil =>
    intro l2 h12 _
    cases l2 with
    | nil => rfl
    | cons b bs => simp [strLtList] at h12
  | cons a as ih =>
    intro l2 h12 h21
    cases l2 with
    | nil => simp [strLtList] at h21
    | cons b bs =>
      simp only [strLtList] at h12 h21
      rcases lt_trichotomy a b with hab | hab | hab
      · rw [if_pos hab] at h12; exact absurd h12 (by decide)
      · subst hab
        rw [if_neg (lt_irrefl a), if_neg (lt_irrefl a)] at h12 h21
        rw [ih bs h12 h21]
      · rw [if_pos hab] at h21; exact absurd h21 (by decide)

theorem strLt_irrefl (s : String) : strLt s s = false := strLtList_irrefl _

theorem strLt_asymm {s t : String} (h : strLt s t = true) : strLt t s = false :=
  strLtList_asymm _ _ h

theorem strLt_neg_trans {s t u : String}
    (h1 : strLt s t = false) (h2 : strLt t u = false) : strLt s u = false :=
  strLtList_neg_trans _ _ _ h1 h2

theorem strLt_antisymm {s t : String}
    (h1 : strLt s t = false) (h2 : strLt t s = false) : s = t := by
  have := strLtList_antisymm s.toList t.toList h1 h2
  cases s with
  | mk ds =>
    cases t with
    | mk es =>
      cases this
      rfl

theorem char_isDigit_toNat {c : Char} (h : c.isDigit = true) :
    48 ≤ c.toNat ∧ c.toNat ≤ 57 := by
  unfold Char.isDigit at h
  rw [Bool.and_eq_true] at h
  constructor
  · have h1 := h.1
    rw [decide_eq_true_eq] at h1
    exact h1
  · have h2 := h.2
    rw [decide_eq_true_eq] at h2
    exact h2

theorem pyIntList_shift (l : List Char) :
    ∀ a, List.foldl (fun a c => a * 10 + (c.toNat - 48)) a l
      = a * 10 ^ l.length + pyIntList l := by
  induction l with
  | nil => intro a; simp [pyIntList]
  | cons c t ih =>
    intro a
    rw [List.foldl_cons, ih (a * 10 + (c.toNat - 48))]
    have h2 : pyIntList (c :: t) = (c.toNat - 48) * 10 ^ t.length + pyIntList t := by
      show List.foldl _ ((0 : Nat) * 10 + (c.toNat - 48)) t = _
      rw [ih ((0 : Nat) * 10 + (c.toNat - 48))]
      ring_nf
    rw [h2, List.length_cons, pow_succ]
    ring

theorem pyIntList_lt_pow :
    ∀ l : List Char, (∀ c ∈ l, c.isDigit = true) →
      pyIntList l < 10 ^ l.length := by
  intro l
  induction l with
  | nil => intro _; simp [pyIntList]
  | cons c t ih =>
    intro hd
    have h2 : pyIntList (c :: t) = (c.toNat - 48) * 10 ^ t.length + pyIntList t := by
      show List.foldl _ ((0 : Nat) * 10 + (c.toNat - 48)) t = _
      rw [pyIntList_shift t ((0 : Nat) * 10 + (c.toNat - 48))]
      ring_nf
    rw [h2, List.length_cons, pow_succ]
    have hc := char_isDigit_toNat (hd c (by simp))
    have ht := ih (fun x hx => hd x (by simp [hx]))
    have hd9 : c.toNat - 48 ≤ 9 := by omega
    have : (c.toNat - 48) * 10 ^ t.length ≤ 9 * 10 ^ t.length :=
      Nat.mul_le_mul_right _ hd9
    omega

theorem strLtList_parse_lt :
    ∀ l1 l2 : List Char, l1.length = l2.length →
      (∀ c ∈ l1, c.isDigit = true) → (∀ c ∈ l2, c.isDigit = true) →
      strLtList l1 l2 = true → pyIntList l1 < pyIntList l2 := by
  intro l1
  induction l1 with
  | nil =>
    intro l2 hlen _ _ hlt
    cases l2 with
    | nil => exact absurd hlt (by decide)
    | cons b bs => cases hlen
  | cons a t1 ih =>
    intro l2 hlen hd1 hd2 hlt
    cases l2 with
    | nil => cases hlen
    | cons b t2 =>
      have hlen2 : t1.length = t2.length := by
        simpa using hlen
      have ha := char_isDigit_toNat (hd1 a (by simp))
      have hb := char_isDigit_toNat (hd2 b (by simp))
      have e1 : pyIntList (a :: t1) = (a.toNat - 48) * 10 ^ t1.length + pyIntList t1 := by
        show List.foldl _ ((0 : Nat) * 10 + (a.toNat - 48)) t1 = _
        rw [pyIntList_shift t1 ((0 : Nat) * 10 + (a.toNat - 48))]
        ring_nf
      have e2 : pyIntList (b :: t2) = (b.toNat - 48) * 10 ^ t2.length + pyIntList t2 := by
        show List.foldl _ ((0 : Nat) * 10 + (b.toNat - 48)) t2 = _
        rw [pyIntList_shift t2 ((0 : Nat) * 10 + (b.toNat - 48))]
        ring_nf
      simp only [strLtList] at hlt
      rcases lt_trichotomy a b with hab | hab | hab
      · have hval : a.toNat < b.toNat := hab
        have hb1 : pyIntList t1 < 10 ^ t1.length :=
          pyIntList_lt_pow t1 (fun x hx => hd1 x (by simp [hx]))
        have hmul : (a.toNat - 48 + 1) * 10 ^ t1.length
            ≤ (b.toNat - 48) * 10 ^ t1.length :=
          Nat.mul_le_mul_right _ (by omega)
        have hdist : (a.toNat - 48 + 1) * 10 ^ t1.length
            = (a.toNat - 48) * 10 ^ t1.length + 10 ^ t1.length := by ring
        have e2b : pyIntList (b :: t2)
            = (b.toNat - 48) * 10 ^ t1.length + pyIntList t2 := by
          rw [e2, hlen2]
        rw [e1, e2b]
        omega
      · subst hab
        rw [if_neg (lt_irrefl a), if_neg (lt_irrefl a)] at hlt
        have ht := ih t2 hlen2 (fun x hx => hd1 x (by simp [hx]))
          (fun x hx => hd2 x (by simp [hx])) hlt
        have e2b : pyIntList (a :: t2)
            = (a.toNat - 48) * 10 ^ t1.length + pyIntList t2 := by
          rw [e2, hlen2]
        rw [e1, e2b]
        omega
      · rw [if_neg (not_lt_of_lt hab), if_pos hab] at hlt
        exact absurd hlt (by decide)

theorem natDigitsAux_length_le :
    ∀ (fuel n k : Nat), n < fuel → 1 ≤ k → n < 10 ^ k →
      (natDigitsAux fuel n).length ≤ k := by
  intro fuel
  induction fuel with
  | zero => intro n k h; omega
  | succ f ih =>
    intro n k hn hk hnk
    rw [natDigitsAux]
    by_cases h10 : n < 10
    · rw [if_pos h10]
      simpa using hk
    · rw [if_neg h10]
      have hk2 : 2 ≤ k := by
        by_contra hc
        have hk1 : k = 1 := by omega
        rw [hk1] at hnk
        simp at hnk
        omega
      have hdivfuel : n / 10 < f := by
        have := Nat.div_lt_self (show 0 < n by omega) (show 1 < 10 by omega)
        omega
      have hdivpow : n / 10 < 10 ^ (k - 1) := by
        have hmul : n / 10 * 10 ≤ n := Nat.div_mul_le_self n 10
        have hpow : 10 ^ k = 10 ^ (k - 1) * 10 := by
          rw [← pow_succ]
          congr 1
          omega
        rw [hpow] at hnk
        by_contra hc
        push_neg at hc
        have : 10 ^ (k - 1) * 10 ≤ n / 10 * 10 := Nat.mul_le_mul_right _ hc
        omega
      have := ih (n / 10) (k - 1) hdivfuel (by omega) hdivpow
      rw [List.length_append, List.length_singleton]
      omega

theorem fmt5_length {n : Nat} (h : n < 100000) : (fmt5 n).toList.length = 5 := by
  have hmk : (fmt5 n).toList
      = List.replicate (5 - (natDigits n).length) '0' ++ natDigits n := rfl
  rw [hmk, List.length_append, List.length_replicate]
  have hle : (natDigits n).length ≤ 5 :=
    natDigitsAux_length_le (n + 1) n 5 (Nat.lt_succ_self n) (by omega)
      (by norm_num; omega)
  omega

/-- On indices below 100000 the collation order of the 5-digit renderings
is exactly the numeric order. -/
theorem fmt5_lt_iff {a b : Nat} (ha : a < 100000) (hb : b < 100000) :
    strLt (fmt5 a) (fmt5 b) = true ↔ a < b := by
  have hfwd : ∀ x y : Nat, x < 100000 → y < 100000 →
      strLt (fmt5 x) (fmt5 y) = true → x < y := by
    intro x y hx hy hlt
    have := strLtList_parse_lt (fmt5 x).toList (fmt5 y).toList
      (by rw [fmt5_length hx, fmt5_length hy])
      (fmt5_all_digits x) (fmt5_all_digits y) hlt
    rw [show pyIntList (fmt5 x).toList = pyInt (fmt5 x) from rfl,
      show pyIntList (fmt5 y).toList = pyInt (fmt5 y) from rfl,
      pyInt_fmt5, pyInt_fmt5] at this
    exact this
  constructor
  · exact hfwd a b ha hb
  · intro hab
    cases hba : strLt (fmt5 b) (fmt5 a) with
    | true => exact absurd (hfwd b a hb ha hba) (by omega)
    | false =>
      cases hcur : strLt (fmt5 a) (fmt5 b) with
      | true => rfl
      | false =>
        have : fmt5 a = fmt5 b := strLt_antisymm hcur hba
        have : a = b := by
          have hp := pyInt_fmt5 a
          rw [this, pyInt_fmt5] at hp
          omega
        omega

/-! ## Line processing -/

theorem listStartsWith_nil_pat (l : List Char) : listStartsWith l [] = true := by
  cases l <;> rfl

theorem listStartsWith_head_ne {c p : Char} (cs ps : List Char) (h : c ≠ p) :
    listStartsWith (c :: cs) (p :: ps) = false := by
  simp [listStartsWith, h]

theorem replaceAllAux_head (pat : List Char) (fuel : Nat) (c : Char)
    (cs : List Char) (h : listStartsWith (c :: cs) pat = false) :
    ∃ t, replaceAllAux pat fuel (c :: cs) = c :: t := by
  cases fuel with
  | zero => exact ⟨cs, rfl⟩
  | succ f =>
    rw [replaceAllAux, if_neg (by simp [h])]
    exact ⟨replaceAllAux pat f cs, rfl⟩

theorem pyReplaceDel_toList (s pat : String) (l : List Char) (h : s.toList = l) :
    pyReplaceDel s pat = String.mk (replaceAllAux pat.toList (l.length + 1) l) := by
  unfold pyReplaceDel
  rw [h]

/-- Processing preserves a leading comment marker: a raw line that
starts with `#` still starts with `#` after the repr wrapper and the two
deletions, so the filter drops it. -/
theorem processLine_comment (l : String) (h : pyStartsWith l "#" = true) :
    pyStartsWith (processLine l) "#" = true := by
  have hl : ∃ ls, l.toList = '#' :: ls := by
    have h2 : listStartsWith l.toList ['#'] = true := h
    cases hc : l.toList with
    | nil => rw [hc] at h2; exact absurd h2 (by decide)
    | cons c cs =>
      rw [hc] at h2
      have : c = '#' := by
        by_contra hne
        rw [listStartsWith_head_ne cs [] hne] at h2
        exact absurd h2 (by decide)
      exact ⟨cs, by rw [this]⟩
  rcases hl with ⟨ls, hls⟩
  unfold processLine
  set s1 : String := "b\x27" ++ l ++ "\x5cn\x27" with hs1
  have hs1l : s1.toList = 'b' :: '\x27' :: ('#' :: (ls ++ ['\x5c', 'n', '\x27'])) := by
    rw [hs1]
    show (("b\x27" ++ l) ++ "\x5cn\x27").data = _
    rw [String.data_append, String.data_append]
    show ('b' :: '\x27' :: []) ++ l.data ++ ('\x5c' :: 'n' :: '\x27' :: []) = _
    rw [show l.data = l.toList from rfl, hls]
    simp
  have step1 : ∃ t, (pyReplaceDel s1 "b\x27").toList = '#' :: t := by
    unfold pyReplaceDel
    rw [hs1l]
    show ∃ t, (String.mk (replaceAllAux ('b' :: '\x27' :: []) _ _)).toList = _
    rw [replaceAllAux, if_pos (by simp [listStartsWith, listStartsWith_nil_pat])]
    have hdrop : List.drop ('b' :: '\x27' :: []).length
        ('b' :: '\x27' :: ('#' :: (ls ++ ['\x5c', 'n', '\x27'])))
        = '#' :: (ls ++ ['\x5c', 'n', '\x27']) := rfl
    rw [hdrop]
    rcases replaceAllAux_head ('b' :: '\x27' :: []) _ '#' (ls ++ ['\x5c', 'n', '\x27'])
      (listStartsWith_head_ne _ _ (by decide)) with ⟨t, ht⟩
    exact ⟨t, by rw [ht]; rfl⟩
  rcases step1 with ⟨t, ht⟩
  rw [pyReplaceDel_toList _ _ _ ht]
  rcases replaceAllAux_head ("\x5cn\x27".toList) (('#' :: t).length + 1) '#' t
    (listStartsWith_head_ne _ _ (by decide)) with ⟨t2, ht2⟩
  rw [ht2]
  show listStartsWith ('#' :: t2) ['#'] = true
  simp [listStartsWith, listStartsWith_nil_pat]

theorem parseShard_foldl (file_nr : String) :
    ∀ (lines : List String) (acc : List (String × String)),
      lines.foldl
        (fun acc line =>
          if pyStartsWith (processLine line) "#" then acc
          else acc ++ [(processLine line, file_nr)]) acc
      = acc ++ ((lines.map processLine).filter
          (fun s => !(pyStartsWith s "#"))).map (fun s => (s, file_nr)) := by
  intro lines
  induction lines with
  | nil => intro acc; simp
  | cons l ls ih =>
    intro acc
    rw [List.foldl_cons, List.map_cons, List.filter_cons]
    cases hc : pyStartsWith (processLine l) "#" with
    | true => simpa using ih acc
    | false => simpa using ih (acc ++ [(processLine l, file_nr)])

/-! ## Store lemmas -/

theorem records_commit (db : DB) : (commit db).records = db.records := by
  simp [commit, DB.records]

theorem insertRow_fresh {db : DB} {r : String × String}
    (h : hash_exists db r.1 = false) :
    insertRow db r = some ⟨db.committed, db.pending ++ [r]⟩ := by
  unfold insertRow
  rw [show (db.records.any fun q => q.1 == r.1) = hash_exists db r.1 from rfl, h]
  rfl

theorem insertRow_dup {db : DB} {r : String × String}
    (h : hash_exists db r.1 = true) : insertRow db r = none := by
  unfold insertRow
  rw [show (db.records.any fun q => q.1 == r.1) = hash_exists db r.1 from rfl, h]
  rfl

theorem records_append_pending (db : DB) (l : List (String × String)) :
    (DB.mk db.committed (db.pending ++ l)).records = db.records ++ l := by
  simp [DB.records]

theorem hash_exists_append (db : DB) (l : List (String × String)) (h : String) :
    hash_exists ⟨db.committed, db.pending ++ l⟩ h
      = (hash_exists db h || l.any (fun q => q.1 == h)) := by
  simp [hash_exists, DB.records, List.any_append, Bool.or_assoc]

/-- `executemany` on an all-fresh, internally duplicate-free batch
applies every row and raises nothing. -/
theorem executemany_ok :
    ∀ (db : DB) (rs : List (String × String)),
      (rs.map Prod.fst).Nodup →
      (∀ h ∈ rs.map Prod.fst, hash_exists db h = false) →
      executemany db rs = (⟨db.committed, db.pending ++ rs⟩, false) := by
  intro db rs
  induction rs generalizing db with
  | nil =>
    intro _ _
    simp [executemany]
  | cons r rs ih =>
    intro hnd hfresh
    have hr : hash_exists db r.1 = false := by
      apply hfresh
      simp
    rw [executemany, insertRow_fresh hr]
    have hnd2 : (rs.map Prod.fst).Nodup := by
      simp only [List.map_cons, List.nodup_cons] at hnd
      exact hnd.2
    have hnotmem : r.1 ∉ rs.map Prod.fst := by
      simp only [List.map_cons, List.nodup_cons] at hnd
      exact hnd.1
    have hfresh2 : ∀ h ∈ rs.map Prod.fst,
        hash_exists ⟨db.committed, db.pending ++ [r]⟩ h = false := by
      intro h hh
      rw [hash_exists_append]
      have h1 : hash_exists db h = false := hfresh h (by simp [hh])
      have h2 : r.1 ≠ h := fun e => hnotmem (e ▸ hh)
      simp [h1, h2]
    show executemany ⟨db.committed, db.pending ++ [r]⟩ rs = _
    rw [ih ⟨db.committed, db.pending ++ [r]⟩ hnd2 hfresh2]
    simp

/-- `executemany` on a batch whose first collision is `d`: the rows
before `d` are applied, the error flag is raised, and `d` and everything
after it are dropped. -/
theorem executemany_stops :
    ∀ (db : DB) (pre : List (String × String)) (d : String × String)
      (post : List (String × String)),
      (pre.map Prod.fst).Nodup →
      (∀ h ∈ pre.map Prod.fst, hash_exists db h = false) →
      hash_exists db d.1 = true →
      executemany db (pre ++ d :: post) = (⟨db.committed, db.pending ++ pre⟩, true) := by
  intro db pre
  induction pre generalizing db with
  | nil =>
    intro d post _ _ hdup
    rw [List.nil_append, executemany, insertRow_dup hdup]
    simp
  | cons p pre ih =>
    intro d post hnd hfresh hdup
    have hp : hash_exists db p.1 = false := by
      apply hfresh
      simp
    rw [List.cons_append, executemany, insertRow_fresh hp]
    have hnd2 : (pre.map Prod.fst).Nodup := by
      simp only [List.map_cons, List.nodup_cons] at hnd
      exact hnd.2
    have hnotmem : p.1 ∉ pre.map Prod.fst := by
      simp only [List.map_cons, List.nodup_cons] at hnd
      exact hnd.1
    have hfresh2 : ∀ h ∈ pre.map Prod.fst,
        hash_exists ⟨db.committed, db.pending ++ [p]⟩ h = false := by
      intro h hh
      rw [hash_exists_append]
      have h1 : hash_exists db h = false := hfresh h (by simp [hh])
      have h2 : p.1 ≠ h := fun e => hnotmem (e ▸ hh)
      simp [h1, h2]
    have hdup2 : hash_exists ⟨db.committed, db.pending ++ [p]⟩ d.1 = true := by
      rw [hash_exists_append]
      simp [hdup]
    show executemany ⟨db.committed, db.pending ++ [p]⟩ (pre ++ d :: post) = _
    rw [ih ⟨db.committed, db.pending ++ [p]⟩ d post hnd2 hfresh2 hdup2]
    simp

theorem hash_exists_false_not_mem {db : DB} {h : String}
    (hf : hash_exists db h = false) : h ∉ db.records.map Prod.fst := by
  intro hmem
  rcases List.mem_map.mp hmem with ⟨r, hr, he⟩
  have : db.records.any (fun q => q.1 == h) = true :=
    List.any_eq_true.mpr ⟨r, hr, by simp [he]⟩
  rw [hash_exists] at hf
  rw [hf] at this
  exact absurd this (by decide)

theorem UniqInv_executemany (rs : List (String × String)) :
    ∀ db : DB, UniqInv db → UniqInv (executemany db rs).1 := by
  induction rs with
  | nil => intro db hi; exact hi
  | cons r rs ih =>
    intro db hi
    rw [executemany]
    cases hins : insertRow db r with
    | none => exact hi
    | some db2 =>
      show UniqInv (executemany db2 rs).1
      apply ih
      unfold insertRow at hins
      by_cases hdup : (db.records.any fun q => q.1 == r.1) = true
      · rw [if_pos hdup] at hins; cases hins
      · rw [if_neg hdup] at hins
        cases hins
        unfold UniqInv at hi ⊢
        rw [records_append_pending db [r], List.map_append, List.map_singleton]
        rw [List.nodup_append]
        refine ⟨hi, List.nodup_singleton _, ?_⟩
        intro a ha hb
        rw [List.mem_singleton] at hb
        subst hb
        exact hash_exists_false_not_mem (Bool.not_eq_true _ ▸ (by
          simpa [hash_exists] using hdup)) ha

theorem UniqInv_commit {db : DB} (h : UniqInv db) : UniqInv (commit db) := by
  unfold UniqInv
  rw [records_commit]
  exact h

theorem UniqInv_insert_hashes {db : DB} (hs : List (String × String))
    (h : UniqInv db) : UniqInv (insert_hashes db hs) := by
  unfold insert_hashes
  by_cases he : (executemany db hs).2 = true
  · rw [if_pos he]
    exact UniqInv_executemany hs db h
  · rw [if_neg he]
    exact UniqInv_commit (UniqInv_executemany hs db h)

theorem UniqInv_downloadLoop (catalog : String → Fetch) :
    ∀ (fuel : Nat) (nr : String) (db : DB), UniqInv db →
      UniqInv (downloadLoop catalog fuel nr db).1 := by
  intro fuel
  induction fuel with
  | zero => intro nr db h; exact h
  | succ f ih =>
    intro nr db h
    rw [downloadLoop]
    cases hcat : catalog nr with
    | found lines =>
      exact ih (nextNr nr) _ (UniqInv_insert_hashes _ h)
    | http code => exact h
    | connFail => exact h

theorem UniqInv_download_files (catalog : String → Fetch) (fuel : Nat)
    (db : DB) (h : UniqInv db) :
    UniqInv (download_files catalog fuel db).1 := by
  unfold download_files
  cases hu : db_is_updated catalog db with
  | none => exact UniqInv_downloadLoop catalog fuel _ db h
  | some b =>
    cases b with
    | false => exact UniqInv_downloadLoop catalog fuel _ db h
    | true => exact h

/-! ## Loop trace lemmas -/

/-- The trace and outcome of the download loop do not depend on the
store state: failed inserts are swallowed inside `insert_hashes` and can
never alter the control flow of the run. -/
theorem downloadLoop_out_indep (catalog : String → Fetch) :
    ∀ (fuel : Nat) (nr : String) (db1 db2 : DB),
      (downloadLoop catalog fuel nr db1).2 = (downloadLoop catalog fuel nr db2).2 := by
  intro fuel
  induction fuel with
  | zero => intro nr db1 db2; rfl
  | succ f ih =>
    intro nr db1 db2
    rw [downloadLoop, downloadLoop]
    cases hcat : catalog nr with
    | found lines =>
      have := ih (nextNr nr) (insert_hashes db1 (parseShard lines nr))
        (insert_hashes db2 (parseShard lines nr))
      simp only [this]
    | http code => rfl
    | connFail => rfl

/-- Shape of the loop's fetch trace from a formatted start index: a
contiguous ascending block of formatted indices. -/
theorem downloadLoop_trace_shape (catalog : String → Fetch) :
    ∀ (fuel n : Nat) (db : DB),
      ∃ k, k ≤ fuel ∧ (1 ≤ fuel → 1 ≤ k) ∧
        (downloadLoop catalog fuel (fmt5 n) db).2.1
          = (List.range k).map (fun i => fmt5 (n + i)) := by
  intro fuel
  induction fuel with
  | zero =>
    intro n db
    exact ⟨0, le_refl 0, by omega, rfl⟩
  | succ f ih =>
    intro n db
    rw [downloadLoop]
    cases hcat : catalog (fmt5 n) with
    | found lines =>
      rw [nextNr_fmt5]
      rcases ih (n + 1) (insert_hashes db (parseShard lines (fmt5 n))) with
        ⟨k, hk, _, htr⟩
      refine ⟨k + 1, by omega, by omega, ?_⟩
      show fmt5 n :: (downloadLoop catalog f (fmt5 (n + 1)) _).2.1 = _
      rw [htr, List.range_succ_eq_map, List.map_cons, List.map_map]
      congr 1
      apply List.map_congr_left
      intro i _
      show fmt5 (n + 1 + i) = fmt5 (n + (i + 1))
      congr 1
      omega
    | http code =>
      refine ⟨1, by omega, by omega, ?_⟩
      rfl
    | connFail =>
      refine ⟨1, by omega, by omega, ?_⟩
      rfl

/-- Once an index answers with an `HTTPError` (such as the 404 marking
sequence exhaustion), it is the last index the loop fetches. -/
theorem downloadLoop_http_last (catalog : String → Fetch) (j : String)
    (hj : catalog j = Fetch.http 404) :
    ∀ (fuel : Nat) (nr : String) (db : DB),
      j ∈ (downloadLoop catalog fuel nr db).2.1 →
      ∃ t, (downloadLoop catalog fuel nr db).2.1 = t ++ [j] := by
  intro fuel
  induction fuel with
  | zero =>
    intro nr db hmem
    exact absurd hmem (by simp [downloadLoop])
  | succ f ih =>
    intro nr db hmem
    rw [downloadLoop] at hmem ⊢
    cases hcat : catalog nr with
    | found lines =>
      rw [hcat] at hmem
      simp only [List.mem_cons] at hmem
      rcases hmem with hmem | hmem
      · subst hmem
        rw [hcat] at hj
        cases hj
      · rcases ih (nextNr nr) (insert_hashes db (parseShard lines nr)) hmem with
          ⟨t, ht⟩
        exact ⟨nr :: t, by simp [ht]⟩
    | http code =>
      rw [hcat] at hmem
      simp only [List.mem_singleton] at hmem
      subst hmem
      exact ⟨[], rfl⟩
    | connFail =>
      rw [hcat] at hmem
      simp only [List.mem_singleton] at hmem
      subst hmem
      rw [hcat] at hj
      cases hj

/-- Combination of the last-fetch and trace-shape lemmas for a loop
started at a formatted index. -/
theorem downloadLoop_last_le (catalog : String → Fetch) (fuel n : Nat)
    (db : DB) (j : String) (hj : catalog j = Fetch.http 404)
    (hmem : j ∈ (downloadLoop catalog fuel (fmt5 n) db).2.1) :
    (∃ t, (downloadLoop catalog fuel (fmt5 n) db).2.1 = t ++ [j]) ∧
    ∀ m ∈ (downloadLoop catalog fuel (fmt5 n) db).2.1, pyInt m ≤ pyInt j := by
  rcases downloadLoop_http_last catalog j hj fuel (fmt5 n) db hmem with ⟨t, ht⟩
  rcases downloadLoop_trace_shape catalog fuel n db with ⟨k, _, _, htr⟩
  cases k with
  | zero =>
    rw [htr] at ht
    exact absurd ht (by simp)
  | succ k2 =>
    have hlast1 : (downloadLoop catalog fuel (fmt5 n) db).2.1.getLast? = some j := by
      rw [ht]
      exact List.getLast?_concat t
    have hlast2 : (downloadLoop catalog fuel (fmt5 n) db).2.1.getLast?
        = some (fmt5 (n + k2)) := by
      rw [htr, List.range_succ, List.map_append, List.map_singleton]
      exact List.getLast?_concat _
    have hje : j = fmt5 (n + k2) := by
      rw [hlast1] at hlast2
      exact Option.some_injective _ hlast2
    refine ⟨⟨t, ht⟩, ?_⟩
    intro m hm
    rw [htr] at hm
    rcases List.mem_map.mp hm with ⟨i, hi, he⟩
    rw [List.mem_range] at hi
    rw [← he, hje, pyInt_fmt5, pyInt_fmt5]
    omega

/-! ## Latest-index lemmas -/

theorem maxFileNr_nil_iff (l : List (String × String)) :
    maxFileNr l = none ↔ l = [] := by
  cases l with
  | nil => simp [maxFileNr]
  | cons r rs =>
    simp only [maxFileNr]
    cases maxFileNr rs <;> simp

theorem maxFileNr_mem :
    ∀ (l : List (String × String)) (m : String),
      maxFileNr l = some m → ∃ r ∈ l, r.2 = m := by
  intro l
  induction l with
  | nil => intro m h; cases h
  | cons r rs ih =>
    intro m h
    rw [maxFileNr] at h
    cases hmr : maxFileNr rs with
    | none =>
      rw [hmr] at h
      cases h
      exact ⟨r, by simp⟩
    | some m2 =>
      rw [hmr] at h
      by_cases hlt : strLt r.2 m2 = true
      · simp only [if_pos hlt] at h
        cases h
        rcases ih m hmr with ⟨q, hq, he⟩
        exact ⟨q, by simp [hq], he⟩
      · simp only [if_neg hlt] at h
        cases h
        exact ⟨r, by simp⟩

theorem maxFileNr_isMax :
    ∀ (l : List (String × String)) (m : String),
      maxFileNr l = some m → ∀ r ∈ l, strLt m r.2 = false := by
  intro l
  induction l with
  | nil => intro m h; cases h
  | cons r rs ih =>
    intro m h q hq
    rw [maxFileNr] at h
    rw [List.mem_cons] at hq
    cases hmr : maxFileNr rs with
    | none =>
      rw [hmr] at h
      cases h
      rcases hq with hq | hq
      · rw [hq]; exact strLt_irrefl _
      · rw [(maxFileNr_nil_iff rs).mp hmr] at hq
        cases hq
    | some m2 =>
      rw [hmr] at h
      by_cases hlt : strLt r.2 m2 = true
      · simp only [if_pos hlt] at h
        cases h
        rcases hq with hq | hq
        · rw [hq]; exact strLt_asymm hlt
        · exact ih m hmr q hq
      · simp only [if_neg hlt] at h
        cases h
        rcases hq with hq | hq
        · rw [hq]; exact strLt_irrefl _
        · have hm2 : strLt r.2 m2 = false := Bool.not_eq_true _ ▸ (by
            simpa using hlt)
          exact strLt_neg_trans hm2 (ih m2 hmr q hq)

/-- On an empty store the latest-index query answers with the sentinel
"00000"; on a non-empty store it answers with a stored `file_nr` that is
maximal in the collation order. -/
theorem get_latest_file_nr_spec (db : DB) :
    (db.records = [] → get_latest_file_nr db = "00000") ∧
    (db.records ≠ [] →
      (∃ r ∈ db.records, r.2 = get_latest_file_nr db) ∧
      ∀ r ∈ db.records, strLt (get_latest_file_nr db) r.2 = false) := by
  constructor
  · intro he
    unfold get_latest_file_nr
    rw [(maxFileNr_nil_iff db.records).mpr he]
  · intro hne
    cases hm : maxFileNr db.records with
    | none => exact absurd ((maxFileNr_nil_iff db.records).mp hm) hne
    | some m =>
      unfold get_latest_file_nr
      rw [hm]
      exact ⟨maxFileNr_mem db.records m hm, maxFileNr_isMax db.records m hm⟩

/-- On a well-formed store the latest index is always a 5-digit
formatted value (the sentinel itself is `fmt5 0`). -/
theorem get_latest_file_nr_fmt5 {db : DB} (hwf : WFdb db) :
    ∃ n, get_latest_file_nr db = fmt5 n := by
  by_cases he : db.records = []
  · exact ⟨0, by rw [(get_latest_file_nr_spec db).1 he]; decide⟩
  · rcases ((get_latest_file_nr_spec db).2 he).1 with ⟨r, hr, he2⟩
    rcases hwf r hr with ⟨n, hn⟩
    exact ⟨n, by rw [← he2, hn]⟩

/-- On a well-formed store the `file_nr == 'None'` guard in
`db_is_updated` can never fire. -/
theorem get_latest_file_nr_ne_None {db : DB} (hwf : WFdb db) :
    get_latest_file_nr db ≠ "None" := by
  rcases get_latest_file_nr_fmt5 hwf with ⟨n, hn⟩
  rw [hn]
  exact fmt5_ne_None n

/-! ## Run equations and fixture facts -/

theorem download_files_up_to_date {catalog : String → Fetch} {db : DB}
    (fuel : Nat) (h : db_is_updated catalog db = some true) :
    download_files catalog fuel db = (db, [], RunEnd.finished) := by
  unfold download_files
  rw [h]

theorem download_files_stale_false {catalog : String → Fetch} {db : DB}
    (fuel : Nat) (h : db_is_updated catalog db = some false) :
    download_files catalog fuel db
      = downloadLoop catalog fuel (get_latest_file_nr db) db := by
  unfold download_files
  rw [h]

theorem download_files_stale_none {catalog : String → Fetch} {db : DB}
    (fuel : Nat) (h : db_is_updated catalog db = none) :
    download_files catalog fuel db
      = downloadLoop catalog fuel (get_latest_file_nr db) db := by
  unfold download_files
  rw [h]

theorem WFdb_db0 : WFdb db0 := by
  intro r hr
  have : r = ("h1", "00000") := by
    simpa [db0, DB.records] using hr
  exact ⟨0, by rw [this]; decide⟩

/-! ## The claims -/

/-- C1 counterexample: with the cursor at 00000 and the probe of 00001
answering `Found`, the loop's first fetch is shard 00000 — the cursor
itself, an index at (not above) the cursor — and only then 00001, 00002. -/
theorem c1_counterexample :
    db_is_updated cat1 db0 = some false ∧
    get_latest_file_nr db0 = "00000" ∧
    (download_files cat1 10 db0).2.1 = ["00000", "00001", "00002"] := by
  refine ⟨rfl, rfl, ?_⟩
  decide

/-- C1 amended: when the probe reports stale (`Found` at `cursor + 1`,
i.e. `db_is_updated` answers `some false`), the syncing loop enters at
the cursor itself: its fetch trace is the contiguous block `cursor,
cursor+1, cursor+2, …` — the shard at the cursor is fetched again,
though no index strictly below the cursor is. -/
theorem c1_loop_starts_at_cursor (catalog : String → Fetch) (fuel : Nat)
    (db : DB) (hwf : WFdb db)
    (hstale : db_is_updated catalog db = some false) (hfuel : 1 ≤ fuel) :
    (download_files catalog fuel db).2.1.head? = some (get_latest_file_nr db) ∧
    ∃ k, 1 ≤ k ∧ k ≤ fuel ∧
      (download_files catalog fuel db).2.1
        = (List.range k).map (fun i => fmt5 (pyInt (get_latest_file_nr db) + i)) := by
  rcases get_latest_file_nr_fmt5 hwf with ⟨n, hget⟩
  rw [download_files_stale_false fuel hstale, hget]
  rcases downloadLoop_trace_shape catalog fuel n db with ⟨k, hk, h1k, htr⟩
  have hk1 : 1 ≤ k := h1k hfuel
  rcases Nat.exists_eq_add_of_le hk1 with ⟨k2, hk2⟩
  constructor
  · rw [htr, hk2]
    rw [show 1 + k2 = k2 + 1 from by omega, List.range_succ_eq_map]
    simp
  · refine ⟨k, hk1, hk, ?_⟩
    rw [htr, pyInt_fmt5]

theorem c1_witness :
    (download_files cat1 10 db0).2.1.head? = some (get_latest_file_nr db0) :=
  (c1_loop_starts_at_cursor cat1 10 db0 WFdb_db0 rfl (by omega)).1

/-- C2 counterexample: hash "x" is already stored; in the batch
`[y, x, z]` the duplicate "x" is not ignored — it raises, so "z" (a
record after the duplicate) is never inserted, and "y" is left pending
(uncommitted).  The batch is aborted at the duplicate. -/
theorem c2_counterexample :
    hash_exists dbX "x" = true ∧
    insert_hashes dbX batchX = ⟨[("x", "00000")], [("y", "00001")]⟩ ∧
    hash_exists (insert_hashes dbX batchX) "z" = false := by
  refine ⟨rfl, ?_, ?_⟩ <;> decide

/-- C2 amended: a duplicate aborts the remainder of the batch.  The rows
before the first duplicate are applied to the open transaction, the
duplicate and everything after it are dropped, the commit is skipped,
and the caught error lets the caller continue. -/
theorem c2_duplicate_aborts_batch_tail (db : DB) (pre : List (String × String))
    (d : String × String) (post : List (String × String))
    (hnd : (pre.map Prod.fst).Nodup)
    (hfresh : ∀ h ∈ pre.map Prod.fst, hash_exists db h = false)
    (hdup : hash_exists db d.1 = true) :
    insert_hashes db (pre ++ d :: post) = ⟨db.committed, db.pending ++ pre⟩ := by
  unfold insert_hashes
  rw [executemany_stops db pre d post hnd hfresh hdup]
  rfl

theorem c2_witness :
    hash_exists dbX ("x", "00001").1 = true ∧
    insert_hashes dbX ([("y", "00001")] ++ ("x", "00001") :: [("z", "00001")])
      = ⟨dbX.committed, dbX.pending ++ [("y", "00001")]⟩ := by
  refine ⟨by decide, ?_⟩
  exact c2_duplicate_aborts_batch_tail dbX [("y", "00001")] ("x", "00001")
    [("z", "00001")] (by decide) (by decide) (by decide)

/-- C3: when the freshness probe raises an HTTPError whose status is not
404 (here 500), `db_is_updated` falls off its handler and returns Python
`None`; `download_files` treats that falsy value as "stale" and enters
the sync loop, issuing a shard fetch — instead of remaining up-to-date
with no fetches as documented. -/
theorem c3_probe_error_enters_loop :
    db_is_updated cat3 db0 = none ∧
    (download_files cat3 5 db0).2.1 = ["00000"] ∧
    (download_files cat3 5 db0).2.2 = RunEnd.finished := by
  refine ⟨rfl, ?_, ?_⟩ <;> decide

/-- C4 counterexample: a failing batch is neither all-in nor all-out:
after inserting `[y, x, z]` into a store already holding "x", the
internal `executemany` raises, yet "y" is visible on the connection
while "z" is not, and `insert_hashes` returns normally (the error is
absorbed, not propagated). -/
theorem c4_counterexample :
    (executemany dbX batchX).2 = true ∧
    hash_exists (insert_hashes dbX batchX) "y" = true ∧
    hash_exists (insert_hashes dbX batchX) "z" = false := by
  refine ⟨?_, ?_, ?_⟩ <;> decide

/-- C4 amended: the batch insert is not atomic and its failures are not
surfaced.  On a constraint violation the rows before the failing one
remain visible on the connection (uncommitted) while the rest are
dropped, and the caught error never reaches the synchronization run:
the run's fetch trace and outcome are independent of the store state. -/
theorem c4_insert_not_atomic_errors_absorbed (db : DB)
    (pre : List (String × String)) (d : String × String)
    (post : List (String × String))
    (hnd : (pre.map Prod.fst).Nodup)
    (hfresh : ∀ h ∈ pre.map Prod.fst, hash_exists db h = false)
    (hdup : hash_exists db d.1 = true) :
    (insert_hashes db (pre ++ d :: post)).records = db.records ++ pre ∧
    ∀ (catalog : String → Fetch) (fuel : Nat) (nr : String) (db2 : DB),
      (downloadLoop catalog fuel nr db).2 = (downloadLoop catalog fuel nr db2).2 := by
  constructor
  · unfold insert_hashes
    rw [executemany_stops db pre d post hnd hfresh hdup]
    show (DB.mk db.committed (db.pending ++ pre)).records = _
    rw [records_append_pending]
  · intro catalog fuel nr db2
    exact downloadLoop_out_indep catalog fuel nr db db2

theorem c4_witness :
    (insert_hashes dbX ([("y", "00001")] ++ ("x", "00001") :: [("z", "00001")])).records
      = dbX.records ++ [("y", "00001")] := by
  exact (c4_insert_not_atomic_errors_absorbed dbX [("y", "00001")] ("x", "00001")
    [("z", "00001")] (by decide) (by decide) (by decide)).1

/-- C5: idempotence of synchronization.  On a well-formed store, if the
catalog publishes nothing beyond the store's cursor (every strictly
higher index answers 404), a run is a complete no-op: the probe reports
up-to-date, the loop is never entered, no fetch and no insert happen,
and the store is returned unchanged. -/
theorem c5_idempotence (catalog : String → Fetch) (fuel : Nat) (db : DB)
    (hwf : WFdb db)
    (hnonew : ∀ s : String,
      pyInt (get_latest_file_nr db) < pyInt s → catalog s = Fetch.http 404) :
    download_files catalog fuel db = (db, [], RunEnd.finished) := by
  rcases get_latest_file_nr_fmt5 hwf with ⟨n, hget⟩
  have hprobe : catalog (nextNr (get_latest_file_nr db)) = Fetch.http 404 := by
    apply hnonew
    rw [hget, nextNr_fmt5, pyInt_fmt5, pyInt_fmt5]
    omega
  have hup : db_is_updated catalog db = some true := by
    unfold db_is_updated
    rw [if_neg (get_latest_file_nr_ne_None hwf), hprobe]
    rfl
  exact download_files_up_to_date fuel hup

theorem c5_witness : download_files cat404 3 db0 = (db0, [], RunEnd.finished) :=
  c5_idempotence cat404 3 db0 WFdb_db0 (fun _ _ => rfl)

/-- C6: `get_latest_file_nr` returns the sentinel "00000" on an empty
store, and on a non-empty store it returns the `file_nr` of some stored
record that is maximal in the collation order the descending query
sorts by — and when every stored index is a formatted 5-digit value
(as every insert path of the code produces), that is exactly the
numerically maximum `shardIndex` over all records.  The operation is a
pure read (a function of the store state alone, returning no modified
state). -/
theorem c6_latest_shard_index (db : DB) :
    (db.records = [] → get_latest_file_nr db = "00000") ∧
    (db.records ≠ [] →
      (∃ r ∈ db.records, r.2 = get_latest_file_nr db) ∧
      ∀ r ∈ db.records, strLt (get_latest_file_nr db) r.2 = false) ∧
    ((∀ r ∈ db.records, ∃ n, n < 100000 ∧ r.2 = fmt5 n) →
      ∀ r ∈ db.records, pyInt r.2 ≤ pyInt (get_latest_file_nr db)) := by
  refine ⟨(get_latest_file_nr_spec db).1, (get_latest_file_nr_spec db).2, ?_⟩
  intro hwf5 r hr
  have hne : db.records ≠ [] := List.ne_nil_of_mem hr
  rcases ((get_latest_file_nr_spec db).2 hne).1 with ⟨r0, hr0, hr0e⟩
  have hmax := ((get_latest_file_nr_spec db).2 hne).2 r hr
  rcases hwf5 r hr with ⟨n, hn, hne2⟩
  rcases hwf5 r0 hr0 with ⟨m, hm, hme⟩
  rw [← hr0e, hme] at hmax ⊢
  rw [hne2] at hmax ⊢
  rw [pyInt_fmt5, pyInt_fmt5]
  by_contra hc
  push_neg at hc
  have hlt : strLt (fmt5 m) (fmt5 n) = true := (fmt5_lt_iff hm hn).mpr hc
  rw [hlt] at hmax
  exact absurd hmax (by decide)

theorem c6_witness : get_latest_file_nr emptyDB = "00000" :=
  (c6_latest_shard_index emptyDB).1 rfl

/-- C7: exhaustion termination.  In any run over a well-formed store, if
index `j` was fetched and the catalog answers `j` with a 404 (the
NotFound signal), then `j` is the final fetch of the run: the trace ends
at `j`, and every index ever fetched is at most `j` — in particular no
index `j + 1` or later is ever fetched. -/
theorem c7_exhaustion_termination (catalog : String → Fetch) (fuel : Nat)
    (db : DB) (hwf : WFdb db) (j : String)
    (hj : catalog j = Fetch.http 404)
    (hmem : j ∈ (download_files catalog fuel db).2.1) :
    (∃ t, (download_files catalog fuel db).2.1 = t ++ [j]) ∧
    ∀ m ∈ (download_files catalog fuel db).2.1, pyInt m ≤ pyInt j := by
  rcases get_latest_file_nr_fmt5 hwf with ⟨n, hget⟩
  cases hu : db_is_updated catalog db with
  | some b =>
    cases b with
    | true =>
      rw [download_files_up_to_date fuel hu] at hmem
      cases hmem
    | false =>
      rw [download_files_stale_false fuel hu, hget] at hmem ⊢
      exact downloadLoop_last_le catalog fuel n db j hj hmem
  | none =>
    rw [download_files_stale_none fuel hu, hget] at hmem ⊢
    exact downloadLoop_last_le catalog fuel n db j hj hmem

theorem c7_witness :
    cat7 "00000" = Fetch.http 404 ∧
    ((∃ t, (download_files cat7 5 db0).2.1 = t ++ ["00000"]) ∧
      ∀ m ∈ (download_files cat7 5 db0).2.1, pyInt m ≤ pyInt "00000") :=
  ⟨rfl, c7_exhaustion_termination cat7 5 db0 WFdb_db0 "00000" rfl (by decide)⟩

/-- C8 amended: a line whose processed form begins with the comment
marker `#` is never turned into a record — in particular every raw line
beginning with `#` is dropped — but ALL other processed lines become one
hash record each, including empty lines: the code has no non-emptiness
filter, so an empty line contributes an empty-string hash. -/
theorem c8_comment_lines_never_stored (lines : List String) (nr : String) :
    parseShard lines nr
      = ((lines.map processLine).filter
          (fun s => !(pyStartsWith s "#"))).map (fun s => (s, nr)) ∧
    (∀ p ∈ parseShard lines nr, pyStartsWith p.1 "#" = false) ∧
    ∀ l ∈ lines, pyStartsWith l "#" = true →
      (processLine l, nr) ∉ parseShard lines nr := by
  have heq : parseShard lines nr
      = ((lines.map processLine).filter
          (fun s => !(pyStartsWith s "#"))).map (fun s => (s, nr)) := by
    unfold parseShard
    rw [parseShard_foldl nr lines []]
    simp
  have hmem : ∀ p ∈ parseShard lines nr, pyStartsWith p.1 "#" = false := by
    intro p hp
    rw [heq] at hp
    rcases List.mem_map.mp hp with ⟨s, hs, he⟩
    rcases List.mem_filter.mp hs with ⟨_, hkeep⟩
    rw [← he]
    revert hkeep
    cases pyStartsWith s "#" <;> simp
  exact ⟨heq, hmem, fun l _ hcomment hin =>
    absurd (hmem _ hin) (by
      rw [processLine_comment l hcomment]
      simp)⟩

/-- C8 counterexample: an empty line does contribute a record — the
empty-string hash — so "exactly the non-empty non-comment lines become
hash values" fails on the code. -/
theorem c8_counterexample :
    parseShard ["", "aaaa"] "00000" = [("", "00000"), ("aaaa", "00000")] := by
  decide

/-- C9: uniqueness invariant.  Any synchronization run — in particular
one over two shards both containing the same hash — preserves the
at-most-one-record-per-hash invariant of the store, and duplicate insert
attempts are never fatal to the run: the run's fetch trace and outcome
are the same whatever the store holds. -/
theorem c9_uniqueness_invariant (catalog : String → Fetch) (fuel : Nat)
    (db : DB) (h : UniqInv db) :
    UniqInv (download_files catalog fuel db).1 ∧
    ∀ (nr : String) (db1 db2 : DB),
      (downloadLoop catalog fuel nr db1).2 = (downloadLoop catalog fuel nr db2).2 :=
  ⟨UniqInv_download_files catalog fuel db h,
    fun nr db1 db2 => downloadLoop_out_indep catalog fuel nr db1 db2⟩

theorem c9_witness : UniqInv (download_files cat9 9 emptyDB).1 :=
  (c9_uniqueness_invariant cat9 9 emptyDB (by
    show (List.map Prod.fst (emptyDB.records)).Nodup
    decide)).1

/-- C10: on an empty store `get_latest_file_nr` returns "00000", which
is exactly the formatted first real shard index `fmt5 0`; the freshness
probe therefore asks for index "00001" and never for "00000"; an empty
store is indistinguishable at this interface from a store whose highest
shard is 00000 (same latest-index answer, same probe outcome for every
catalog); and on any well-formed store the latest index is never the
string "None", so the `file_nr == 'None'` comparison in `db_is_updated`
can never be true. -/
theorem c10_empty_store_sentinel :
    get_latest_file_nr emptyDB = "00000" ∧
    fmt5 0 = "00000" ∧
    nextNr (get_latest_file_nr emptyDB) = "00001" ∧
    get_latest_file_nr db0 = get_latest_file_nr emptyDB ∧
    (∀ catalog : String → Fetch,
      db_is_updated catalog emptyDB = db_is_updated catalog db0) ∧
    ∀ db : DB, WFdb db → get_latest_file_nr db ≠ "None" :=
  ⟨rfl, by decide, by decide, rfl, fun _ => rfl,
    fun _ hwf => get_latest_file_nr_ne_None hwf⟩
